import Mathlib

/-!
Shallow embedding of `src/stat.rs` (crate `game_stat`).

Modelling choices, kept as close to the Rust source as the logic allows:

* `f32` values are modelled as exact rationals `ℚ`; every computation the
  claims mention is exact in `f32` as well.
* An `Rc<StatModifierHandleTag>` ownership token is modelled by a natural
  number id (allocated from the `next_id` counter of the `Stat`, which models
  the freshness of `Rc` allocations).  The `Weak` reference stored in a slot
  is modelled by that id.  Whether a weak reference can still be upgraded,
  i.e. whether some live handle to the token still exists, is an ambient fact
  about the program at the moment an operation runs; it is passed to every
  operation as an environment `alive : ℕ → Bool` (`alive i = true` iff the
  token `i` can still be upgraded).  Inside `add_modifier*` the freshly
  created strong key is alive by construction, which the definition reflects
  by extending the environment with the new id.
* The fixed-size array `[Option<ModifierMeta>; M]` is modelled as a
  `List (Option ModifierMeta)`; `Stat.new M base` builds the `M` empty slots.
* Rust's stable `slice::sort_by` is modelled by `List.insertionSort` with the
  relation `compare ≠ .gt` derived from the source comparator.  The source
  comparator is inconsistent only on the pair of two `None` slots, and `none`
  equals `none`, so every comparison sort produces this very list.
* The private cached field `value` is named `cached_value` here because the
  public method `Stat::value` keeps its source name.
-/

/-- Modelled from the spec: the repository's `crate::modifier::StatModifier`
(file `modifier.rs`, not part of the given sources) is, per the spec, an
external collaborator exposing only `apply(value) -> value` (a pure function
of the current accumulator) and `default_order() -> order key`. -/
structure StatModifier where
  apply : ℚ → ℚ
  default_order : Int

/-- One occupied slot of the table: mirrors the Rust `struct ModifierMeta`
with fields `modifier`, `order` and `owner_modifier_weak` (the weak
reference, modelled as the owner token id). -/
structure ModifierMeta where
  modifier : StatModifier
  order : Int
  owner_modifier_weak : Nat

/-- Mirrors the Rust `pub struct ModifiersFullError;`. -/
inductive ModifiersFullError : Type
  | mk : ModifiersFullError

/-- A slot of the table, `Option<ModifierMeta>`. -/
abbrev Slot := Option ModifierMeta

/-- Mirrors `pub struct Stat<const M: usize>`; `modifiers` has length `M`,
`cached_value` is the private Rust field `value`, `next_id` models the
allocator of fresh `Rc` tokens. -/
structure Stat where
  base_value : ℚ
  cached_value : ℚ
  modifiers : List Slot
  next_id : Nat

/-- The comparator passed to `sort_by` in `Stat::calculate_value`
(`stat.rs` lines 148-158), verbatim: two occupied slots compare by `order`,
an occupied slot is `Less` than an empty one, and an empty first slot yields
`Greater` whatever the second slot is. -/
def compareSlots : Slot → Slot → Ordering
  | some m1, some m2 => compare m1.order m2.order
  | some _, none => Ordering.lt
  | none, _ => Ordering.gt

/-- The `≤`-shaped relation a stable comparison sort derives from the
comparator: `x` may stay left of `y` iff the comparator does not say `gt`. -/
def SlotLe (x y : Slot) : Prop := compareSlots x y ≠ Ordering.gt

instance : DecidableRel SlotLe := fun x y =>
  inferInstanceAs (Decidable (compareSlots x y ≠ Ordering.gt))

/-- The walk of `calculate_value` over the (already sorted) slots
(`stat.rs` lines 161-169): an occupied slot whose owner can still be
upgraded is applied to the accumulator and kept, an occupied slot whose
owner is gone is cleared and skipped, an empty slot is skipped. -/
def applyPass (alive : Nat → Bool) : List Slot → ℚ → List Slot × ℚ
  | [], v => ([], v)
  | none :: rest, v =>
    let p := applyPass alive rest v
    (none :: p.1, p.2)
  | some m :: rest, v =>
    if alive m.owner_modifier_weak then
      let p := applyPass alive rest (m.modifier.apply v)
      (some m :: p.1, p.2)
    else
      let p := applyPass alive rest v
      (none :: p.1, p.2)

/-- Models `self.modifiers.iter_mut().find(|m| m.is_none())` followed by the
assignment `*modifier_option = Some(meta)`: replaces the first empty slot,
or reports that no empty slot exists. -/
def setFirstNone (l : List Slot) (meta : ModifierMeta) : Option (List Slot) :=
  match l with
  | [] => none
  | none :: rest => some (some meta :: rest)
  | some x :: rest => (setFirstNone rest meta).map (fun r => some x :: r)

/-- Mirrors `Stat::<M>::new(base_value)`: `M` empty slots, cached value
seeded with the base value.  (The `MaybeUninit` dance of the source is an
implementation detail; its observable result is exactly `M` `None` slots.) -/
def Stat.new (M : Nat) (base_value : ℚ) : Stat :=
  { base_value := base_value
    cached_value := base_value
    modifiers := List.replicate M none
    next_id := 0 }

/-- Mirrors `Stat::calculate_value` (`stat.rs` lines 143-171): sort all the
slots with the comparator, then walk them once, applying alive modifiers to
an accumulator seeded with `base_value` and clearing dead slots, and store
the accumulator in the cached value. -/
def Stat.calculate_value (alive : Nat → Bool) (s : Stat) : Stat :=
  let sorted := List.insertionSort SlotLe s.modifiers
  let p := applyPass alive sorted s.base_value
  { s with modifiers := p.1, cached_value := p.2 }

/-- Mirrors `Stat::update_modifiers` (`stat.rs` lines 126-135): recompute
(and thereby reclaim slots) exactly when some occupied slot's owner can no
longer be upgraded. -/
def Stat.update_modifiers (alive : Nat → Bool) (s : Stat) : Stat :=
  let any_modifier_dropped :=
    (s.modifiers.filterMap id).any fun m => !(alive m.owner_modifier_weak)
  if any_modifier_dropped then s.calculate_value alive else s

/-- Mirrors `Stat::value` (`stat.rs` lines 138-141): reconcile, then return
the cached value.  Returns the mutated receiver together with the result. -/
def Stat.value (alive : Nat → Bool) (s : Stat) : Stat × ℚ :=
  let s1 := s.update_modifiers alive
  (s1, s1.cached_value)

/-- Mirrors `Stat::add_modifier_with_order` (`stat.rs` lines 99-123):
reconcile, find the first empty slot, and either fill it with a fresh owner
token and recompute, or fail with `ModifiersFullError`.  The freshly created
strong key is alive during the recomputation, hence the extended
environment. -/
def Stat.add_modifier_with_order (alive : Nat → Bool) (s : Stat)
    (modifier : StatModifier) (order : Int) :
    Stat × Except ModifiersFullError Nat :=
  let s1 := s.update_modifiers alive
  let key := s1.next_id
  match setFirstNone s1.modifiers ⟨modifier, order, key⟩ with
  | some ms =>
    let s2 : Stat := { s1 with modifiers := ms, next_id := key + 1 }
    (s2.calculate_value (fun i => i == key || alive i), Except.ok key)
  | none => (s1, Except.error ModifiersFullError.mk)

/-- Mirrors `Stat::add_modifier` (`stat.rs` lines 74-97): identical to
`add_modifier_with_order` with the modifier's intrinsic default order (the
source duplicates the body; the two bodies coincide once
`order := modifier.default_order` is substituted). -/
def Stat.add_modifier (alive : Nat → Bool) (s : Stat)
    (modifier : StatModifier) : Stat × Except ModifiersFullError Nat :=
  s.add_modifier_with_order alive modifier modifier.default_order

/-- The aliveness environment in which no handle has ever been dropped. -/
def allAlive : Nat → Bool := fun _ => true

/-- Modelled from the spec: the value the spec promises a read returns —
`base_value` combined with `apply` of every modifier whose handle is
currently alive, applied in ascending `order`. -/
def specValue (alive : Nat → Bool) (s : Stat) : ℚ :=
  (List.insertionSort (fun m1 m2 : ModifierMeta => m1.order ≤ m2.order)
      ((s.modifiers.filterMap id).filter fun m => alive m.owner_modifier_weak)).foldl
    (fun v m => m.modifier.apply v) s.base_value

/-- What the walk of `calculate_value` leaves in one slot: an occupied slot
survives iff its owner is alive, a dead or empty slot ends up empty. -/
def cleanSlot (alive : Nat → Bool) : Slot → Slot
  | some m => if alive m.owner_modifier_weak then some m else none
  | none => none

theorem applyPass_fst (alive : Nat → Bool) (l : List Slot) : ∀ v : ℚ,
    (applyPass alive l v).1 = l.map (cleanSlot alive) := by
  induction l with
  | nil => intro v; rfl
  | cons x rest ih =>
    intro v
    match x with
    | none => simp [applyPass, cleanSlot, ih]
    | some m =>
      cases h : alive m.owner_modifier_weak with
      | true => simp [applyPass, cleanSlot, h, ih]
      | false => simp [applyPass, cleanSlot, h, ih]

theorem applyPass_snd (alive : Nat → Bool) (l : List Slot) : ∀ v : ℚ,
    (applyPass alive l v).2 =
      ((l.filterMap id).filter fun m => alive m.owner_modifier_weak).foldl
        (fun v m => m.modifier.apply v) v := by
  induction l with
  | nil => intro v; rfl
  | cons x rest ih =>
    intro v
    match x with
    | none => simp [applyPass, ih]
    | some m =>
      cases h : alive m.owner_modifier_weak with
      | true => simp [applyPass, h, ih]
      | false => simp [applyPass, h, ih]

theorem calculate_value_modifiers (alive : Nat → Bool) (s : Stat) :
    (s.calculate_value alive).modifiers =
      (List.insertionSort SlotLe s.modifiers).map (cleanSlot alive) := by
  simp [Stat.calculate_value, applyPass_fst]

theorem calculate_value_cached (alive : Nat → Bool) (s : Stat) :
    (s.calculate_value alive).cached_value =
      (((List.insertionSort SlotLe s.modifiers).filterMap id).filter
          fun m => alive m.owner_modifier_weak).foldl
        (fun v m => m.modifier.apply v) s.base_value := by
  simp [Stat.calculate_value, applyPass_snd]

theorem calculate_value_base (alive : Nat → Bool) (s : Stat) :
    (s.calculate_value alive).base_value = s.base_value := rfl

theorem calculate_value_next_id (alive : Nat → Bool) (s : Stat) :
    (s.calculate_value alive).next_id = s.next_id := rfl

/-- The `any_modifier_dropped` scan of `update_modifiers` is `false` exactly
when every occupied slot's owner is still alive. -/
theorem any_dropped_eq_false_iff (alive : Nat → Bool) (l : List Slot) :
    ((l.filterMap id).any fun m => !(alive m.owner_modifier_weak)) = false ↔
      ∀ m : ModifierMeta, some m ∈ l → alive m.owner_modifier_weak = true := by
  rw [List.any_eq_false]
  constructor
  · intro h m hm
    have := h m (List.mem_filterMap.mpr ⟨some m, hm, rfl⟩)
    simpa using this
  · intro h m hm
    obtain ⟨a, ha, hid⟩ := List.mem_filterMap.mp hm
    cases a with
    | none => cases hid
    | some m' =>
      cases hid
      simp [h m ha]

theorem update_modifiers_of_no_dead (alive : Nat → Bool) (s : Stat)
    (h : ∀ m : ModifierMeta, some m ∈ s.modifiers → alive m.owner_modifier_weak = true) :
    s.update_modifiers alive = s := by
  simp only [Stat.update_modifiers]
  rw [(any_dropped_eq_false_iff alive s.modifiers).mpr h]
  simp

/-- Membership in a cleaned slot list forces the owner to be alive. -/
theorem mem_of_mem_clean {alive : Nat → Bool} {l : List Slot} {m : ModifierMeta}
    (h : some m ∈ l.map (cleanSlot alive)) :
    alive m.owner_modifier_weak = true ∧ some m ∈ l := by
  obtain ⟨x, hx, hcx⟩ := List.mem_map.mp h
  cases x with
  | none => cases hcx
  | some m' =>
    by_cases ha : alive m'.owner_modifier_weak = true
    · rw [cleanSlot, if_pos ha] at hcx
      cases hcx
      exact ⟨ha, hx⟩
    · rw [cleanSlot, if_neg ha] at hcx
      cases hcx

/-- Every occupied slot surviving `calculate_value` has an alive owner. -/
theorem calculate_value_no_dead (alive : Nat → Bool) (s : Stat) (m : ModifierMeta)
    (h : some m ∈ (s.calculate_value alive).modifiers) :
    alive m.owner_modifier_weak = true := by
  rw [calculate_value_modifiers] at h
  exact (mem_of_mem_clean h).1

/-- Every occupied slot surviving `update_modifiers` has an alive owner. -/
theorem update_modifiers_no_dead (alive : Nat → Bool) (s : Stat) (m : ModifierMeta)
    (h : some m ∈ (s.update_modifiers alive).modifiers) :
    alive m.owner_modifier_weak = true := by
  rw [Stat.update_modifiers] at h
  by_cases hd :
      ((s.modifiers.filterMap id).any fun m => !(alive m.owner_modifier_weak)) = true
  · rw [if_pos hd] at h
    exact calculate_value_no_dead alive s m h
  · rw [if_neg hd] at h
    exact (any_dropped_eq_false_iff alive s.modifiers).mp
      (Bool.eq_false_iff.mpr hd) m h

theorem update_modifiers_idem (alive : Nat → Bool) (s : Stat) :
    (s.update_modifiers alive).update_modifiers alive = s.update_modifiers alive :=
  update_modifiers_of_no_dead alive _ (update_modifiers_no_dead alive s)

theorem update_modifiers_base (alive : Nat → Bool) (s : Stat) :
    (s.update_modifiers alive).base_value = s.base_value := by
  rw [Stat.update_modifiers]
  split
  · rfl
  · rfl

theorem update_modifiers_next_id (alive : Nat → Bool) (s : Stat) :
    (s.update_modifiers alive).next_id = s.next_id := by
  rw [Stat.update_modifiers]
  split
  · rfl
  · rfl

/-- C8: calling `value()` repeatedly on the same `Stat`, with no intervening
`add_modifier`/`add_modifier_with_order` call and no intervening handle drop
(the aliveness environment is unchanged), returns the same number on every
call and leaves the `Stat` in the same state after the first call. -/
theorem value_idempotent (alive : Nat → Bool) (s : Stat) :
    (s.value alive).1.value alive = s.value alive := by
  simp only [Stat.value]
  rw [update_modifiers_idem]

/-- C9: `Stat::new(base_value)` is infallible (it is a total function of the
embedding), yields `M` empty slots (the fully-initialized `M`-element array,
nothing partial is observable) with the given `base_value`, and immediately
after construction `value()` returns `base_value` (in every aliveness
environment). -/
theorem new_all_empty_and_value_base (M : Nat) (base : ℚ) (alive : Nat → Bool) :
    (Stat.new M base).modifiers = List.replicate M none ∧
    (Stat.new M base).modifiers.length = M ∧
    (Stat.new M base).base_value = base ∧
    (Stat.new M base).value alive = (Stat.new M base, base) := by
  refine ⟨rfl, by simp [Stat.new], rfl, ?_⟩
  have h : (Stat.new M base).update_modifiers alive = Stat.new M base := by
    refine update_modifiers_of_no_dead alive _ ?_
    intro m hm
    have := List.eq_of_mem_replicate (show some m ∈ List.replicate M none from hm)
    cases this
  simp only [Stat.value, h]
  rfl

/-- C10: frame property — neither `value()` nor `add_modifier` nor
`add_modifier_with_order` (whether it returns `Ok` or `Err`) changes the
public `base_value` field. -/
theorem base_value_frame (alive : Nat → Bool) (s : Stat) (modifier : StatModifier)
    (order : Int) :
    (s.value alive).1.base_value = s.base_value ∧
    (s.add_modifier alive modifier).1.base_value = s.base_value ∧
    (s.add_modifier_with_order alive modifier order).1.base_value = s.base_value := by
  have hwo : ∀ (md : StatModifier) (o : Int),
      (s.add_modifier_with_order alive md o).1.base_value = s.base_value := by
    intro md o
    rw [Stat.add_modifier_with_order]
    cases h : setFirstNone (s.update_modifiers alive).modifiers
        ⟨md, o, (s.update_modifiers alive).next_id⟩ with
    | some ms => simp [h, calculate_value_base, update_modifiers_base]
    | none => simp [h, update_modifiers_base]
  refine ⟨?_, hwo modifier modifier.default_order, hwo modifier order⟩
  simp [Stat.value, update_modifiers_base]

/-- C1 (failing input): on `Stat::<1>::new(0.0)`, directly writing
`base_value = 5.0` and then calling `value()` returns the stale cached
`0.0`, not `base_value` combined with the (empty) set of alive modifiers,
which is `5.0`: the lazy `update_modifiers` only recomputes when some handle
was dropped, so a direct write to the public `base_value` field is never
observed.  This contradicts the claim (and the doc comment of
`Stat::value`). -/
theorem value_stale_after_direct_base_write :
    (({ Stat.new 1 0 with base_value := 5 } : Stat).value allAlive).2 = 0 ∧
    specValue allAlive ({ Stat.new 1 0 with base_value := 5 } : Stat) = 5 ∧
    (0 : ℚ) ≠ 5 := by
  refine ⟨?_, ?_, by norm_num⟩
  · simp [Stat.value, Stat.update_modifiers, Stat.new, allAlive]
  · simp [specValue, Stat.new, List.insertionSort]

/-- The ordering guarantee a slot position can carry after the sort: two
occupied slots are in ascending `order`, and an empty slot never precedes an
occupied one.  (Two empty slots carry no constraint on each other, which is
all the inconsistent `(None, None)` comparison of the source can support.) -/
def SlotRel : Slot → Slot → Prop
  | some m1, some m2 => m1.order ≤ m2.order
  | some _, none => True
  | none, none => True
  | none, some _ => False

theorem slotLe_some_some {m1 m2 : ModifierMeta} :
    SlotLe (some m1) (some m2) ↔ m1.order ≤ m2.order := by
  simp only [SlotLe, compareSlots]
  exact compare_le_iff_le

theorem slotLe_some_none (m : ModifierMeta) : SlotLe (some m) none := by
  simp [SlotLe, compareSlots]

theorem not_slotLe_none_left (y : Slot) : ¬ SlotLe none y := by
  simp [SlotLe, compareSlots]

theorem slotRel_of_slotLe {x y : Slot} (h : SlotLe x y) : SlotRel x y := by
  match x, y with
  | some m1, some m2 => exact slotLe_some_some.mp h
  | some _, none => exact trivial
  | none, _ => exact absurd h (not_slotLe_none_left _)

theorem slotRel_of_not_slotLe {x y : Slot} (h : ¬ SlotLe x y) : SlotRel y x := by
  match x, y with
  | some m1, some m2 =>
    have hn : ¬ m1.order ≤ m2.order := fun hle => h (slotLe_some_some.mpr hle)
    exact le_of_not_le hn
  | some m, none => exact absurd (slotLe_some_none m) h
  | none, none => exact trivial
  | none, some _ => exact trivial

theorem slotRel_trans_slotLe {x y z : Slot} (h1 : SlotLe x y) (h2 : SlotRel y z) :
    SlotRel x z := by
  match x, y, z with
  | none, _, _ => exact absurd h1 (not_slotLe_none_left _)
  | some m1, some m2, some m3 =>
    exact le_trans (slotLe_some_some.mp h1) h2
  | some m1, some m2, none => exact trivial
  | some m1, none, some m3 => exact (h2 : False).elim
  | some m1, none, none => exact trivial

theorem pairwise_orderedInsert (a : Slot) (l : List Slot) (h : l.Pairwise SlotRel) :
    (List.orderedInsert SlotLe a l).Pairwise SlotRel := by
  induction l with
  | nil => simp [List.orderedInsert]
  | cons b rest ih =>
    rw [List.orderedInsert]
    have hb := List.pairwise_cons.mp h
    by_cases hle : SlotLe a b
    · rw [if_pos hle]
      refine List.pairwise_cons.mpr ⟨?_, h⟩
      intro z hz
      rcases List.mem_cons.mp hz with rfl | hz'
      · exact slotRel_of_slotLe hle
      · exact slotRel_trans_slotLe hle (hb.1 z hz')
    · rw [if_neg hle]
      refine List.pairwise_cons.mpr ⟨?_, ih hb.2⟩
      intro z hz
      rcases (List.mem_orderedInsert SlotLe).mp hz with rfl | hz'
      · exact slotRel_of_not_slotLe hle
      · exact hb.1 z hz'

theorem pairwise_insertionSortSlots (l : List Slot) :
    (List.insertionSort SlotLe l).Pairwise SlotRel := by
  induction l with
  | nil => simp [List.insertionSort]
  | cons a rest ih =>
    rw [List.insertionSort]
    exact pairwise_orderedInsert a _ ih

/-- The occupied entries of a slot list that is pairwise `SlotRel` are in
ascending `order`. -/
theorem pairwise_filterMap_of_pairwise_slotRel {l : List Slot}
    (h : l.Pairwise SlotRel) :
    (l.filterMap id).Pairwise fun m1 m2 : ModifierMeta => m1.order ≤ m2.order := by
  rw [List.pairwise_filterMap]
  refine h.imp ?_
  intro x y hxy m1 hm1 m2 hm2
  cases x with
  | none => simp at hm1
  | some a =>
    cases y with
    | none => simp at hm2
    | some b =>
      have h1 : a = m1 := by simpa using hm1
      have h2 : b = m2 := by simpa using hm2
      subst h1
      subst h2
      exact hxy

/-- C4: whenever the value is recomputed (`calculate_value`), the alive
modifiers — and only those — are applied to an accumulator seeded with
`base_value` in ascending order of their stored `order` field, regardless of
the sequence in which they sit in the slot array. -/
theorem calculate_value_applies_alive_in_order (alive : Nat → Bool) (s : Stat) :
    ∃ l : List ModifierMeta,
      l.Perm ((s.modifiers.filterMap id).filter fun m => alive m.owner_modifier_weak) ∧
      (l.Pairwise fun m1 m2 => m1.order ≤ m2.order) ∧
      (s.calculate_value alive).cached_value =
        l.foldl (fun v m => m.modifier.apply v) s.base_value := by
  refine ⟨((List.insertionSort SlotLe s.modifiers).filterMap id).filter
      fun m => alive m.owner_modifier_weak, ?_, ?_, ?_⟩
  · exact (((List.perm_insertionSort SlotLe s.modifiers).filterMap id).filter _)
  · exact (pairwise_filterMap_of_pairwise_slotRel
      (pairwise_insertionSortSlots s.modifiers)).filter _
  · exact calculate_value_cached alive s

/-- C5 (counterexample): the comparator of `calculate_value` is not a
consistent total order on `Option<ModifierMeta>`: on the pair of two empty
slots it answers `Greater` in both argument orders, while a total order
comparator must satisfy `compare x y = (compare y x).swap` at every pair
(so comparing two equal empty slots would have to answer `Equal`). -/
theorem compareSlots_not_consistent_on_empty_pair :
    compareSlots none none = Ordering.gt ∧
    compareSlots none none ≠ (compareSlots none none).swap := by
  constructor
  · rfl
  · intro h
    cases h

/-- C5 (amended): the comparator orders occupied slots by their stored
`order` field ascending, places every empty slot after every occupied slot,
and behaves like a total order on every pair in which at least one slot is
occupied (swap-consistency and, in the `≤`-reading, transitivity hold
there); the single degenerate pair is two empty slots, which compare as
`Greater` in both directions — harmless for the sort, since empty slots are
indistinguishable from one another. -/
theorem compareSlots_amended_order_props :
    (∀ m1 m2 : ModifierMeta,
      compareSlots (some m1) (some m2) = compare m1.order m2.order) ∧
    (∀ m : ModifierMeta, compareSlots (some m) none = Ordering.lt) ∧
    (∀ m : ModifierMeta, compareSlots none (some m) = Ordering.gt) ∧
    (∀ x y : Slot, x.isSome ∨ y.isSome →
      compareSlots x y = (compareSlots y x).swap) ∧
    (∀ x y z : Slot, compareSlots x y ≠ Ordering.gt →
      compareSlots y z ≠ Ordering.gt → compareSlots x z ≠ Ordering.gt) ∧
    compareSlots none none = Ordering.gt := by
  refine ⟨fun m1 m2 => rfl, fun m => rfl, fun m => rfl, ?_, ?_, rfl⟩
  · intro x y hxy
    match x, y with
    | some m1, some m2 =>
      rw [compareSlots, compareSlots]
      rcases lt_trichotomy m1.order m2.order with h | h | h
      · rw [compare_lt_iff_lt.mpr h, compare_gt_iff_gt.mpr h]
        rfl
      · rw [compare_eq_iff_eq.mpr h, compare_eq_iff_eq.mpr h.symm]
        rfl
      · rw [compare_gt_iff_gt.mpr h, compare_lt_iff_lt.mpr h]
        rfl
    | some m1, none => rfl
    | none, some m2 => rfl
    | none, none => simp at hxy
  · intro x y z h1 h2
    match x, y, z with
    | none, _, _ => exact absurd rfl h1
    | some m1, none, some m3 => exact absurd rfl h2
    | some m1, some m2, none => intro h; cases h
    | some m1, none, none => intro h; cases h
    | some m1, some m2, some m3 =>
      exact compare_le_iff_le.mpr
        (le_trans (compare_le_iff_le.mp h1) (compare_le_iff_le.mp h2))

theorem setFirstNone_eq_none_iff (meta : ModifierMeta) (l : List Slot) :
    setFirstNone l meta = none ↔ none ∉ l := by
  induction l with
  | nil => simp [setFirstNone]
  | cons x rest ih =>
    cases x with
    | none => simp [setFirstNone]
    | some m => simp [setFirstNone, ih]

theorem setFirstNone_mem {meta x : ModifierMeta} : ∀ {l l' : List Slot},
    setFirstNone l meta = some l' → some x ∈ l → some x ∈ l'
  | [], _, h, _ => by cases h
  | none :: rest, _, h, hx => by
    rw [setFirstNone] at h
    cases h
    rcases List.mem_cons.mp hx with hh | hh
    · cases hh
    · exact List.mem_cons_of_mem _ hh
  | some m :: rest, _, h, hx => by
    rw [setFirstNone] at h
    cases hr : setFirstNone rest meta with
    | none => rw [hr] at h; cases h
    | some r =>
      rw [hr] at h
      cases h
      rcases List.mem_cons.mp hx with hh | hh
      · exact hh ▸ List.mem_cons_self _ _
      · exact List.mem_cons_of_mem _ (setFirstNone_mem hr hh)

theorem setFirstNone_self {meta : ModifierMeta} : ∀ {l l' : List Slot},
    setFirstNone l meta = some l' → some meta ∈ l'
  | [], _, h => by cases h
  | none :: rest, _, h => by
    rw [setFirstNone] at h
    cases h
    exact List.mem_cons_self _ _
  | some m :: rest, _, h => by
    rw [setFirstNone] at h
    cases hr : setFirstNone rest meta with
    | none => rw [hr] at h; cases h
    | some r =>
      rw [hr] at h
      cases h
      exact List.mem_cons_of_mem _ (setFirstNone_self hr)

theorem update_modifiers_eq_calc_of_dead (alive : Nat → Bool) (s : Stat)
    (m : ModifierMeta) (hm : some m ∈ s.modifiers)
    (hd : alive m.owner_modifier_weak = false) :
    s.update_modifiers alive = s.calculate_value alive := by
  rw [Stat.update_modifiers]
  have hany : ((s.modifiers.filterMap id).any fun m => !(alive m.owner_modifier_weak)) =
      true := by
    rw [List.any_eq_true]
    exact ⟨m, List.mem_filterMap.mpr ⟨some m, hm, rfl⟩, by simp [hd]⟩
  rw [if_pos hany]

theorem none_mem_calc_of_dead_or_none (alive : Nat → Bool) (s : Stat)
    (h : none ∈ s.modifiers ∨
      ∃ m : ModifierMeta, some m ∈ s.modifiers ∧ alive m.owner_modifier_weak = false) :
    none ∈ (s.calculate_value alive).modifiers := by
  rw [calculate_value_modifiers]
  rcases h with h | ⟨m, hm, hd⟩
  · have hs : (none : Slot) ∈ List.insertionSort SlotLe s.modifiers :=
      (List.perm_insertionSort SlotLe s.modifiers).mem_iff.mpr h
    have hmm := List.mem_map_of_mem (cleanSlot alive) hs
    simpa [cleanSlot] using hmm
  · have hs : (some m : Slot) ∈ List.insertionSort SlotLe s.modifiers :=
      (List.perm_insertionSort SlotLe s.modifiers).mem_iff.mpr hm
    have hmm := List.mem_map_of_mem (cleanSlot alive) hs
    have hclean : cleanSlot alive (some m) = none := by simp [cleanSlot, hd]
    rw [hclean] at hmm
    exact hmm

theorem update_eq_self_of_full (alive : Nat → Bool) (s : Stat)
    (h : ∀ slot ∈ s.modifiers,
      ∃ m : ModifierMeta, slot = some m ∧ alive m.owner_modifier_weak = true) :
    s.update_modifiers alive = s := by
  refine update_modifiers_of_no_dead alive s ?_
  intro m hm
  obtain ⟨m', hm', ha⟩ := h (some m) hm
  cases hm'
  exact ha

theorem none_not_mem_of_full {alive : Nat → Bool} {s : Stat}
    (h : ∀ slot ∈ s.modifiers,
      ∃ m : ModifierMeta, slot = some m ∧ alive m.owner_modifier_weak = true) :
    none ∉ s.modifiers := by
  intro hn
  obtain ⟨m, hm, _⟩ := h none hn
  cases hm

theorem none_mem_update_of_not_full (alive : Nat → Bool) (s : Stat)
    (h : ¬ ∀ slot ∈ s.modifiers,
      ∃ m : ModifierMeta, slot = some m ∧ alive m.owner_modifier_weak = true) :
    none ∈ (s.update_modifiers alive).modifiers := by
  push_neg at h
  obtain ⟨slot, hslot, hbad⟩ := h
  cases slot with
  | none =>
    by_cases hd :
        ((s.modifiers.filterMap id).any fun m => !(alive m.owner_modifier_weak)) = true
    · rw [Stat.update_modifiers, if_pos hd]
      exact none_mem_calc_of_dead_or_none alive s (Or.inl hslot)
    · rw [Stat.update_modifiers, if_neg hd]
      exact hslot
  | some m =>
    have hdm : alive m.owner_modifier_weak = false :=
      Bool.eq_false_iff.mpr (fun hc => (hbad m rfl) hc)
    rw [update_modifiers_eq_calc_of_dead alive s m hslot hdm]
    exact none_mem_calc_of_dead_or_none alive s (Or.inr ⟨m, hslot, hdm⟩)

theorem add_with_order_snd_ok (alive : Nat → Bool) (s : Stat)
    (modifier : StatModifier) (order : Int)
    (h : none ∈ (s.update_modifiers alive).modifiers) :
    (s.add_modifier_with_order alive modifier order).2 = Except.ok s.next_id := by
  rw [Stat.add_modifier_with_order]
  cases hs : setFirstNone (s.update_modifiers alive).modifiers
      ⟨modifier, order, (s.update_modifiers alive).next_id⟩ with
  | none =>
    rw [setFirstNone_eq_none_iff] at hs
    exact absurd h hs
  | some ms => simp [hs, update_modifiers_next_id]

theorem add_with_order_eq_err (alive : Nat → Bool) (s : Stat)
    (modifier : StatModifier) (order : Int)
    (h : none ∉ (s.update_modifiers alive).modifiers) :
    s.add_modifier_with_order alive modifier order =
      (s.update_modifiers alive, Except.error ModifiersFullError.mk) := by
  rw [Stat.add_modifier_with_order]
  cases hs : setFirstNone (s.update_modifiers alive).modifiers
      ⟨modifier, order, (s.update_modifiers alive).next_id⟩ with
  | none => simp [hs]
  | some ms =>
    have : setFirstNone (s.update_modifiers alive).modifiers
        ⟨modifier, order, (s.update_modifiers alive).next_id⟩ ≠ none := by
      rw [hs]
      intro hc
      cases hc
    rw [Ne, setFirstNone_eq_none_iff] at this
    exact absurd (not_not.mp this) h

theorem add_with_order_err_characterization (alive : Nat → Bool) (s : Stat)
    (modifier : StatModifier) (order : Int) :
    ((s.add_modifier_with_order alive modifier order).2 =
        Except.error ModifiersFullError.mk ↔
      ∀ slot ∈ s.modifiers,
        ∃ m : ModifierMeta, slot = some m ∧ alive m.owner_modifier_weak = true) ∧
    ((s.add_modifier_with_order alive modifier order).2 =
        Except.error ModifiersFullError.mk →
      (s.add_modifier_with_order alive modifier order).1 = s) := by
  by_cases hfull : ∀ slot ∈ s.modifiers,
      ∃ m : ModifierMeta, slot = some m ∧ alive m.owner_modifier_weak = true
  · have hupd : s.update_modifiers alive = s := update_eq_self_of_full alive s hfull
    have herr : s.add_modifier_with_order alive modifier order =
        (s, Except.error ModifiersFullError.mk) := by
      rw [add_with_order_eq_err alive s modifier order
        (by rw [hupd]; exact none_not_mem_of_full hfull), hupd]
    rw [herr]
    exact ⟨⟨fun _ => hfull, fun _ => rfl⟩, fun _ => rfl⟩
  · have hok := add_with_order_snd_ok alive s modifier order
      (none_mem_update_of_not_full alive s hfull)
    constructor
    · rw [hok]
      constructor
      · intro hc
        cases hc
      · intro hc
        exact absurd hc hfull
    · intro hc
      rw [hok] at hc
      cases hc

/-- C3: `add_modifier` and `add_modifier_with_order` return
`Err(ModifiersFullError)` exactly when all slots are occupied by modifiers
whose handles are alive (equivalently: when reconciliation cannot free
anything, which is the "after reconciling" reading, since reconciliation
removes exactly the dead slots); on this failure the entire `Stat` state is
left unchanged.  `value()` and `new` are total functions of the embedding,
so this is the only error condition. -/
theorem add_modifier_err_iff_full_alive (alive : Nat → Bool) (s : Stat)
    (modifier : StatModifier) (order : Int) :
    (((s.add_modifier alive modifier).2 = Except.error ModifiersFullError.mk ↔
        ∀ slot ∈ s.modifiers,
          ∃ m : ModifierMeta, slot = some m ∧ alive m.owner_modifier_weak = true) ∧
      ((s.add_modifier alive modifier).2 = Except.error ModifiersFullError.mk →
        (s.add_modifier alive modifier).1 = s)) ∧
    (((s.add_modifier_with_order alive modifier order).2 =
          Except.error ModifiersFullError.mk ↔
        ∀ slot ∈ s.modifiers,
          ∃ m : ModifierMeta, slot = some m ∧ alive m.owner_modifier_weak = true) ∧
      ((s.add_modifier_with_order alive modifier order).2 =
          Except.error ModifiersFullError.mk →
        (s.add_modifier_with_order alive modifier order).1 = s)) :=
  ⟨add_with_order_err_characterization alive s modifier modifier.default_order,
    add_with_order_err_characterization alive s modifier order⟩

/-- C2: on a `Stat` whose slots are all occupied, once the last handle to
one of the occupied slots' tokens is dropped (that slot's owner is no longer
alive), the next `add_modifier` or `add_modifier_with_order` call succeeds
and returns `Ok` with a new handle — reconciliation before the slot search
frees the dead slot. -/
theorem add_modifier_succeeds_after_drop (alive : Nat → Bool) (s : Stat)
    (modifier : StatModifier) (order : Int)
    (hfull : ∀ slot ∈ s.modifiers, slot.isSome = true)
    (hdead : ∃ m : ModifierMeta,
      some m ∈ s.modifiers ∧ alive m.owner_modifier_weak = false) :
    (s.add_modifier alive modifier).2 = Except.ok s.next_id ∧
    (s.add_modifier_with_order alive modifier order).2 = Except.ok s.next_id := by
  obtain ⟨m, hm, hd⟩ := hdead
  have hnone : none ∈ (s.update_modifiers alive).modifiers := by
    rw [update_modifiers_eq_calc_of_dead alive s m hm hd]
    exact none_mem_calc_of_dead_or_none alive s (Or.inr ⟨m, hm, hd⟩)
  exact ⟨add_with_order_snd_ok alive s modifier modifier.default_order hnone,
    add_with_order_snd_ok alive s modifier order hnone⟩

/-- The "+5" modifier of the spec's example (order 0). -/
def mAdd5 : StatModifier := ⟨fun v => v + 5, 0⟩

/-- The "×2" modifier of the spec's example (order 1). -/
def mTimes2 : StatModifier := ⟨fun v => v * 2, 1⟩

/-- The "+100" modifier of the spec's example (order -1). -/
def mAdd100 : StatModifier := ⟨fun v => v + 100, -1⟩

/-- A one-slot `Stat` whose single slot is occupied by `mAdd5` owned by
token `0`. -/
def sFull : Stat :=
  { base_value := 10
    cached_value := 15
    modifiers := [some ⟨mAdd5, 0, 0⟩]
    next_id := 1 }

/-- The aliveness environment in which every handle has been dropped. -/
def deadEnv : Nat → Bool := fun _ => false

theorem add_modifier_err_iff_full_alive_witness :
    (sFull.add_modifier allAlive mTimes2).2 = Except.error ModifiersFullError.mk ∧
    (sFull.add_modifier allAlive mTimes2).1 = sFull := by
  have h := add_modifier_err_iff_full_alive allAlive sFull mTimes2 0
  have herr : (sFull.add_modifier allAlive mTimes2).2 =
      Except.error ModifiersFullError.mk := by
    refine h.1.1.mpr ?_
    intro slot hs
    have : slot = some ⟨mAdd5, 0, 0⟩ := by simpa [sFull] using hs
    exact ⟨⟨mAdd5, 0, 0⟩, this, rfl⟩
  exact ⟨herr, h.1.2 herr⟩

theorem add_modifier_succeeds_after_drop_witness :
    (sFull.add_modifier deadEnv mTimes2).2 = Except.ok 1 ∧
    (sFull.add_modifier_with_order deadEnv mTimes2 7).2 = Except.ok 1 :=
  add_modifier_succeeds_after_drop deadEnv sFull mTimes2 7
    (by
      intro slot hs
      have : slot = some ⟨mAdd5, 0, 0⟩ := by simpa [sFull] using hs
      rw [this]
      rfl)
    ⟨⟨mAdd5, 0, 0⟩, by simp [sFull], rfl⟩

theorem compareSlots_amended_order_props_witness :
    compareSlots (some ⟨mAdd5, 0, 0⟩) none =
      (compareSlots none (some ⟨mAdd5, 0, 0⟩)).swap :=
  compareSlots_amended_order_props.2.2.2.1 (some ⟨mAdd5, 0, 0⟩) none
    (Or.inl rfl)

/-- State of the spec example after `Stat::<3>::new(10.0)`. -/
def exStat0 : Stat := Stat.new 3 10

/-- After adding the "+5" modifier with order 0 (handle A is token 0). -/
def exStep1 : Stat × Except ModifiersFullError Nat :=
  exStat0.add_modifier_with_order allAlive mAdd5 0

/-- After adding the "×2" modifier with order 1 (handle B is token 1). -/
def exStep2 : Stat × Except ModifiersFullError Nat :=
  exStep1.1.add_modifier_with_order allAlive mTimes2 1

/-- The environment after handle A (token 0) is dropped. -/
def exDropA : Nat → Bool := fun i => !(i == 0)

/-- Reading `value()` after the drop of A. -/
def exStep3 : Stat × ℚ := exStep2.1.value exDropA

/-- After adding the "+100" modifier with order -1 (handle C is token 2),
with A dropped. -/
def exStep4 : Stat × Except ModifiersFullError Nat :=
  exStep3.1.add_modifier_with_order exDropA mAdd100 (-1)

/-- C7: the spec example on `Stat::<3>::new(10.0)` — adding "+5" (order 0,
handle A) and "×2" (order 1, handle B) makes `value()` return 30; after
dropping A, `value()` returns 20; adding "+100" (order -1, handle C) then
succeeds in the slot freed by A's drop and `value()` returns 220. -/
theorem example_scenario_values :
    exStep1.2 = Except.ok 0 ∧
    exStep2.2 = Except.ok 1 ∧
    (exStep2.1.value allAlive).2 = 30 ∧
    exStep3.2 = 20 ∧
    exStep4.2 = Except.ok 2 ∧
    (exStep4.1.value exDropA).2 = 220 := by
  refine ⟨?_, ?_, ?_, ?_, ?_, ?_⟩ <;>
    norm_num [exStat0, exStep1, exStep2, exStep3, exStep4, exDropA, mAdd5,
      mTimes2, mAdd100, Stat.value, Stat.update_modifiers, Stat.calculate_value,
      Stat.add_modifier_with_order, applyPass, setFirstNone, Stat.new, allAlive,
      List.insertionSort, List.orderedInsert, SlotLe, compareSlots]

theorem setFirstNone_countNone {meta : ModifierMeta} : ∀ {l l' : List Slot},
    setFirstNone l meta = some l' →
    l'.countP (fun x => x.isNone) + 1 = l.countP (fun x => x.isNone)
  | [], _, h => by cases h
  | none :: rest, _, h => by
    rw [setFirstNone] at h
    cases h
    simp [List.countP_cons]
  | some m :: rest, _, h => by
    rw [setFirstNone] at h
    cases hr : setFirstNone rest meta with
    | none => rw [hr] at h; cases h
    | some r =>
      rw [hr] at h
      cases h
      have := setFirstNone_countNone hr
      simp [List.countP_cons]
      omega

theorem update_modifiers_allAlive (s : Stat) : s.update_modifiers allAlive = s :=
  update_modifiers_of_no_dead allAlive s (fun _ _ => rfl)

theorem cleanSlot_of_all_true {alive : Nat → Bool} (h : ∀ n, alive n = true)
    (x : Slot) : cleanSlot alive x = x := by
  cases x with
  | none => rfl
  | some m => simp [cleanSlot, h]

theorem calculate_value_modifiers_of_all_true {alive : Nat → Bool}
    (h : ∀ n, alive n = true) (s : Stat) :
    (s.calculate_value alive).modifiers = List.insertionSort SlotLe s.modifiers := by
  rw [calculate_value_modifiers]
  rw [funext (cleanSlot_of_all_true h), List.map_id']

/-- Repeated `add_modifier` calls on one `Stat`, collecting every call's
result, in a fixed aliveness environment. -/
def addAll (alive : Nat → Bool) (s : Stat) :
    List StatModifier → Stat × List (Except ModifiersFullError Nat)
  | [] => (s, [])
  | m :: rest =>
    let p := s.add_modifier alive m
    let q := addAll alive p.1 rest
    (q.1, p.2 :: q.2)

theorem addAll_characterization (mods : List StatModifier) : ∀ s : Stat,
    mods.length ≤ s.modifiers.countP (fun x => x.isNone) →
    (addAll allAlive s mods).2 = (List.range' s.next_id mods.length).map Except.ok ∧
    (∀ x : ModifierMeta, some x ∈ s.modifiers →
      some x ∈ (addAll allAlive s mods).1.modifiers) ∧
    (∀ i : Nat, s.next_id ≤ i → i < s.next_id + mods.length →
      ∃ x : ModifierMeta, some x ∈ (addAll allAlive s mods).1.modifiers ∧
        x.owner_modifier_weak = i) := by
  induction mods with
  | nil =>
    intro s _
    refine ⟨rfl, fun x hx => hx, ?_⟩
    intro i h1 h2
    simp only [List.length_nil, Nat.add_zero] at h2
    omega
  | cons m rest ih =>
    intro s hcount
    have hupd : s.update_modifiers allAlive = s := update_modifiers_allAlive s
    have hpos : 0 < s.modifiers.countP (fun x => x.isNone) := by
      have := hcount
      simp only [List.length_cons] at this
      omega
    have hn : (none : Slot) ∈ s.modifiers := by
      obtain ⟨a, ha, hpa⟩ := List.countP_pos_iff.mp hpos
      rw [Option.isNone_iff_eq_none.mp hpa] at ha
      exact ha
    obtain ⟨ms, hms⟩ : ∃ ms, setFirstNone s.modifiers
        ⟨m, m.default_order, s.next_id⟩ = some ms := by
      cases hsf : setFirstNone s.modifiers ⟨m, m.default_order, s.next_id⟩ with
      | none => exact absurd hn ((setFirstNone_eq_none_iff _ _).mp hsf)
      | some ms => exact ⟨ms, rfl⟩
    have halltrue : ∀ n, (fun i => i == s.next_id || allAlive i) n = true := by
      intro n
      simp [allAlive]
    have hadd : s.add_modifier allAlive m =
        (Stat.calculate_value (fun i => i == s.next_id || allAlive i)
          { s with modifiers := ms, next_id := s.next_id + 1 }, Except.ok s.next_id) := by
      rw [Stat.add_modifier, Stat.add_modifier_with_order]
      rw [hupd]
      rw [hms]
    set s3 : Stat := Stat.calculate_value (fun i => i == s.next_id || allAlive i)
      { s with modifiers := ms, next_id := s.next_id + 1 } with hs3
    have h3mods : s3.modifiers = List.insertionSort SlotLe ms :=
      calculate_value_modifiers_of_all_true halltrue _
    have h3next : s3.next_id = s.next_id + 1 := rfl
    have h3count : rest.length ≤ s3.modifiers.countP (fun x => x.isNone) := by
      rw [h3mods, (List.perm_insertionSort SlotLe ms).countP_eq]
      have := setFirstNone_countNone hms
      simp only [List.length_cons] at hcount
      omega
    have h3mem : ∀ x : ModifierMeta, some x ∈ s.modifiers → some x ∈ s3.modifiers := by
      intro x hx
      rw [h3mods, (List.perm_insertionSort SlotLe ms).mem_iff]
      exact setFirstNone_mem hms hx
    have h3self : some (⟨m, m.default_order, s.next_id⟩ : ModifierMeta) ∈ s3.modifiers := by
      rw [h3mods, (List.perm_insertionSort SlotLe ms).mem_iff]
      exact setFirstNone_self hms
    obtain ⟨ih1, ih2, ih3⟩ := ih s3 h3count
    have haddAll : addAll allAlive s (m :: rest) =
        ((addAll allAlive s3 rest).1, Except.ok s.next_id :: (addAll allAlive s3 rest).2) := by
      rw [addAll]
      rw [hadd]
    refine ⟨?_, ?_, ?_⟩
    · rw [haddAll]
      simp only [List.length_cons, List.range'_succ, List.map_cons]
      rw [ih1, h3next]
    · intro x hx
      rw [haddAll]
      exact ih2 x (h3mem x hx)
    · intro i h1 h2
      rw [haddAll]
      by_cases hi : i = s.next_id
      · subst hi
        exact ⟨⟨m, m.default_order, s.next_id⟩, ih2 _ h3self, rfl⟩
      · refine ih3 i ?_ ?_
        · rw [h3next]
          omega
        · rw [h3next]
          simp only [List.length_cons] at h2
          omega

/-- C6: on a fresh `Stat<M>`, any sequence of at most `M` `add_modifier`
calls during which no handle is dropped succeeds entirely: every call
returns `Ok`, the returned handles are the pairwise-distinct tokens
`0, 1, …`, each returned handle is a live owner of an occupied slot of the
final table, and dropping any one of them leaves every other handle's
modifier in place after the next reconciliation. -/
theorem addAll_within_capacity_all_ok (M : Nat) (base : ℚ)
    (mods : List StatModifier) (h : mods.length ≤ M) :
    (addAll allAlive (Stat.new M base) mods).2 =
      (List.range mods.length).map Except.ok ∧
    ((List.range mods.length).map
        (Except.ok : Nat → Except ModifiersFullError Nat)).Nodup ∧
    (∀ i < mods.length, ∃ x : ModifierMeta,
      some x ∈ (addAll allAlive (Stat.new M base) mods).1.modifiers ∧
      x.owner_modifier_weak = i) ∧
    (∀ i j : Nat, i < mods.length → j < mods.length → i ≠ j →
      ∃ x : ModifierMeta,
        some x ∈ ((addAll allAlive (Stat.new M base) mods).1.calculate_value
          fun k => !(k == i)).modifiers ∧
        x.owner_modifier_weak = j) := by
  have hcnt : (Stat.new M base).modifiers.countP (fun x => x.isNone) = M := by
    have hall : ∀ a ∈ (Stat.new M base).modifiers, (fun x : Slot => x.isNone) a = true := by
      intro a ha
      rw [List.eq_of_mem_replicate (show a ∈ List.replicate M none from ha)]
      rfl
    rw [List.countP_eq_length.mpr hall]
    exact List.length_replicate M none
  obtain ⟨h1, h2, h3⟩ := addAll_characterization mods (Stat.new M base)
    (by rw [hcnt]; exact h)
  have hnext : (Stat.new M base).next_id = 0 := rfl
  have htokens : ∀ i < mods.length, ∃ x : ModifierMeta,
      some x ∈ (addAll allAlive (Stat.new M base) mods).1.modifiers ∧
      x.owner_modifier_weak = i := by
    intro i hi
    refine h3 i ?_ ?_
    · rw [hnext]
      omega
    · rw [hnext]
      omega
  refine ⟨?_, ?_, htokens, ?_⟩
  · rw [h1, hnext, List.range_eq_range']
  · exact (List.nodup_range mods.length).map (fun a b hab => Except.ok.inj hab)
  · intro i j hi hj hij
    obtain ⟨x, hx, hxo⟩ := htokens j hj
    refine ⟨x, ?_, hxo⟩
    rw [calculate_value_modifiers]
    have hsorted : (some x : Slot) ∈ List.insertionSort SlotLe
        (addAll allAlive (Stat.new M base) mods).1.modifiers :=
      (List.perm_insertionSort SlotLe _).mem_iff.mpr hx
    have hclean : cleanSlot (fun k => !(k == i)) (some x) = some x := by
      have : (x.owner_modifier_weak == i) = false := by
        rw [hxo]
        exact beq_eq_false_iff_ne.mpr hij.symm
      simp [cleanSlot, this]
    rw [← hclean]
    exact List.mem_map_of_mem _ hsorted

theorem addAll_within_capacity_all_ok_witness :
    (addAll allAlive (Stat.new 2 10) [mAdd5, mTimes2]).2 =
      [Except.ok 0, Except.ok 1] := by
  have h := addAll_within_capacity_all_ok 2 10 [mAdd5, mTimes2] (by simp)
  simpa using h.1
